import Mathlib

/-!
Shallow embedding of the `amoffat/translator` batch localization pipeline
(`src/translator/main.py`, `src/translator/parser.py`).

Conventions of the embedding:
* Python dicts are association lists (`List (String × α)`) in insertion order;
  `dictGet` is `d.get(k)`, `dictSet` is `d[k] = v` (update in place, else append),
  matching CPython's insertion-ordered dict semantics that `json.dump` serializes.
* The SHA-1 hexdigest `h` of `main.py` (line 64) is an opaque text fingerprint; the
  development is parametric in `h : String → String`, and theorems that rely on the
  fingerprint being collision-free take `Function.Injective h` as an explicit
  hypothesis (the spec itself demands a collision-free fingerprint).
* The LLM translation capability (`llm.translate`) is an oracle
  `String → Option String → Option String` mapping (to_translate, context) to an
  optional raw result; `none` stands for an invocation error or an unrecoverable
  response.  The code's `assert updated_translation` also rejects an empty result.
-/

namespace Translator

/-- An entry loaded from a source namespace file by `load_source`
(`main.py` lines 51-61): key, source value and optional context
(the sibling `key_` entry). -/
structure Entry where
  key : String
  value : String
  context : Option String
deriving DecidableEq, Repr

/-- The per-(key, language) fingerprint record stored in `cache.json`:
`cache["entries"][key]["hashes"][lang] = {"input": …, "output": …}`
(`main.py` lines 177-184). -/
structure LangHashes where
  input : Option String
  output : Option String
deriving DecidableEq, Repr

/-- `d.get(k)` on a Python dict modeled as an insertion-ordered association list. -/
def dictGet {α : Type} : List (String × α) → String → Option α
  | [], _ => none
  | (k', v) :: rest, k => if k' = k then some v else dictGet rest k

/-- `d[k] = v` on a Python dict: update the existing slot in place, else append. -/
def dictSet {α : Type} : List (String × α) → String → α → List (String × α)
  | [], k, v => [(k, v)]
  | (k', v') :: rest, k, v =>
      if k' = k then (k, v) :: rest else (k', v') :: dictSet rest k v

/-- The text fed to the fingerprint: `to_translate + (context or "")`
(`main.py` line 178).  `Option.getD ""` matches Python's `or ""` because a
falsy context (`None` or `""`) contributes the empty string either way. -/
def inputText (e : Entry) : String := e.value ++ e.context.getD ""

/-- The in-memory state of one (language, namespace) pass:
`lang_translations` (the per-language store file) and the slice of
`cache["entries"][·]["hashes"][lang]` for the fixed language. -/
structure PassState where
  translations : List (String × String)
  cache : List (String × LangHashes)
deriving DecidableEq, Repr

/-- `needs_translation` for one entry (`main.py` lines 183-201).
For the primary language the code overwrites `cur_translation`,
`last_output_hash` and `last_input_hash` so that the hash comparison succeeds
(lines 186-191); `if not cur_translation` is Python truthiness, so a missing
or empty stored translation always forces re-translation. -/
def needsTranslation (h : String → String) (isPrimary : Bool) (st : PassState)
    (e : Entry) : Bool :=
  let curInputHash := h (inputText e)
  let langHashes := (dictGet st.cache e.key).getD ⟨none, none⟩
  let curTranslation : Option String :=
    if isPrimary then some e.value else dictGet st.translations e.key
  let lastInputHash := if isPrimary then some curInputHash else langHashes.input
  let lastOutputHash := if isPrimary then some (h e.value) else langHashes.output
  match curTranslation with
  | none => true
  | some t =>
      if t = "" then true
      else !decide (lastInputHash = some curInputHash ∧ lastOutputHash = some (h t))

/-- One iteration of the per-entry loop (`main.py` lines 175-237) for a fixed
language.  When translation is needed the oracle is invoked; an oracle failure
(`none`) or a falsy result (rejected by `assert updated_translation`) falls back
to the source text `to_translate` (lines 212-224).  Lines 232-234 then update
the cache fingerprints and the store unconditionally.  The returned Bool
records whether the translation capability was invoked (`= needs_translation`). -/
def processEntry (h : String → String) (oracle : String → Option String → Option String)
    (isPrimary : Bool) (st : PassState) (e : Entry) : PassState × Bool :=
  let curInputHash := h (inputText e)
  let curTranslation : Option String :=
    if isPrimary then some e.value else dictGet st.translations e.key
  let needs := needsTranslation h isPrimary st e
  let updated : String :=
    if needs then
      match oracle e.value e.context with
      | some t => if t = "" then e.value else t
      | none => e.value
    else curTranslation.getD ""
  (⟨dictSet st.translations e.key updated,
    dictSet st.cache e.key ⟨some curInputHash, some (h updated)⟩⟩, needs)

/-- The whole `for key, to_translate, context in entries` loop for one
(language, namespace) pair; also counts how many entries invoked the
translation capability. -/
def processPass (h : String → String) (oracle : String → Option String → Option String)
    (isPrimary : Bool) (st : PassState) : List Entry → PassState × Nat
  | [] => (st, 0)
  | e :: rest =>
      let step := processEntry h oracle isPrimary st e
      let restResult := processPass h oracle isPrimary step.1 rest
      (restResult.1, (if step.2 then 1 else 0) + restResult.2)

/-- The durable state across namespaces for one fixed language: the shared
`cache` (note: keyed by entry key only, not by namespace — `main.py` line 177)
and the per-namespace translation files. -/
structure RunState where
  cache : List (String × LangHashes)
  stores : List (String × List (String × String))
deriving DecidableEq, Repr

/-- The `for source in source_entries(...)` loop of `main` (lines 151-237)
restricted to one language: each namespace loads its own translation file but
all namespaces share the single `cache["entries"]` table. -/
def runNamespaces (h : String → String) (oracle : String → Option String → Option String)
    (isPrimary : Bool) (st : RunState) : List (String × List Entry) → RunState × Nat
  | [] => (st, 0)
  | (ns, entries) :: rest =>
      let store := (dictGet st.stores ns).getD []
      let passResult := processPass h oracle isPrimary ⟨store, st.cache⟩ entries
      let st2 : RunState := ⟨passResult.1.cache, dictSet st.stores ns passResult.1.translations⟩
      let restResult := runNamespaces h oracle isPrimary st2 rest
      (restResult.1, passResult.2 + restResult.2)

/-- An entry is settled in a pass state when the store holds a non-empty
translation for its key and the cache fingerprints match the entry's current
input and the stored translation — exactly the situation `main.py` lines
195-201 skip, and the situation lines 232-234 establish.  For the primary
language the stored value must moreover be the source value, since lines
188-191 compare against `to_translate` itself. -/
def settled (h : String → String) (isPrimary : Bool) (st : PassState) (e : Entry) : Prop :=
  ∃ v, dictGet st.translations e.key = some v ∧ v ≠ "" ∧
    dictGet st.cache e.key = some ⟨some (h (inputText e)), some (h v)⟩ ∧
    (isPrimary = true → v = e.value)

/-- Stand-in fingerprint for concrete evaluations: the counterexamples below do
not depend on which fingerprint is used (they collide already at the
concatenation fed into the hash, or do not involve the hash at all), and the
positive theorems assume injectivity explicitly, which `idHash` satisfies. -/
def idHash : String → String := fun s => s

/-- An oracle that always succeeds with the fixed translation `"T"`. -/
def oracleT : String → Option String → Option String := fun _ _ => some "T"

/-- An oracle that always fails (invocation error / unrecoverable response). -/
def oracleFail : String → Option String → Option String := fun _ _ => none

/-! ### Placeholder-tag rewriting (`src/translator/parser.py` lines 66-79)

`escape_placeholder_tags` runs `re.sub(r"<(\d+)>", r"<tag_\1>", xml)` and then
`re.sub(r"</(\d+)>", r"</tag_\1>", xml)`; `unescape_placeholder_tags` runs the
two inverse substitutions.  All four are instances of one scheme: scan left to
right and rewrite every non-overlapping occurrence of `<` ++ pre ++ digits ++ `>`
(with a non-empty maximal digit run, as the greedy `\d+` must be followed by
`>`) into `<` ++ post ++ digits ++ `>`, continuing the scan after the match.
Strings are modeled by their character lists; `Char.isDigit` models `\d` (the
source strings are ASCII). -/

/-- Scanner for one generic Python `re.sub` pass over the pattern
`<` ++ pre ++ `(\d+)` ++ `>` with replacement `<` ++ post ++ `\1` ++ `>`.
The first argument counts input characters still covered by the previous
match (already represented by its emitted replacement); it only makes the
recursion structural, and `subTagAux pre post k l = subTag pre post (l.drop k)`
is proved below. -/
def subTagAux (pre post : List Char) : Nat → List Char → List Char
  | _ + 1, [] => []
  | k + 1, _ :: r => subTagAux pre post k r
  | 0, [] => []
  | 0, c :: r =>
      let r2 := r.drop pre.length
      let ds := r2.takeWhile Char.isDigit
      if c = '<' ∧ pre.isPrefixOf r ∧ ds ≠ [] ∧ (r2.drop ds.length).head? = some '>' then
        '<' :: post ++ ds ++ '>' :: subTagAux pre post (pre.length + ds.length + 1) r
      else c :: subTagAux pre post 0 r

/-- One generic Python `re.sub` pass for the pattern `<` ++ pre ++ `(\d+)` ++ `>`
with replacement `<` ++ post ++ `\1` ++ `>`: rewrite every non-overlapping
occurrence, scanning left to right and continuing after each match. -/
def subTag (pre post : List Char) (l : List Char) : List Char :=
  subTagAux pre post 0 l

/-- Does the pattern `<` ++ pre ++ digits ++ `>` match at the head of the list?
On a match, return the digit run and the remainder after the closing `>`.
(The same test `subTag` performs at each scan position, split out for the
statements below.) -/
def tagSplit (pre : List Char) : List Char → Option (List Char × List Char)
  | [] => none
  | c :: r =>
      let r2 := r.drop pre.length
      let ds := r2.takeWhile Char.isDigit
      if c = '<' ∧ pre.isPrefixOf r ∧ ds ≠ [] ∧ (r2.drop ds.length).head? = some '>' then
        some (ds, r.drop (pre.length + ds.length + 1))
      else none

/-- Does `<` ++ pre ++ digits ++ `>` occur anywhere in the list? -/
def hasTag (pre : List Char) : List Char → Bool
  | [] => false
  | c :: r => (tagSplit pre (c :: r)).isSome || hasTag pre r

/-- The characters of the parser-safe marker `tag_`. -/
def tagChars : List Char := ['t', 'a', 'g', '_']

/-- `escape_placeholder_tags` (`parser.py` lines 66-71): `<N>` becomes
`<tag_N>`, then `</N>` becomes `</tag_N>`. -/
def escape_placeholder_tags (xml : List Char) : List Char :=
  subTag ['/'] ('/' :: tagChars) (subTag [] tagChars xml)

/-- `unescape_placeholder_tags` (`parser.py` lines 74-79): `<tag_N>` becomes
`<N>`, then `</tag_N>` becomes `</N>`. -/
def unescape_placeholder_tags (xml : List Char) : List Char :=
  subTag ('/' :: tagChars) ['/'] (subTag tagChars [] xml)

/-! ### Spec-modelled reconciliation with locked records

`src/` contains only the hash-cache iteration of the pipeline; the spec (§2)
describes the converged design of five successive iterations, whose
`TranslationRecord` carries `original`, `context` and `locked` fields.  The
`locked` flag and the pruning step exist in no file under `src/`, so the
definitions below are modelled from the spec (§3, §4.1) to settle the claims
about them. -/

/-- Modelled from the spec: the persisted `TranslationRecord` of spec §3 —
current translated text, the source value and context at the time of the last
translation, and the manual `locked` pin. The record format itself is absent
from `src/`. -/
structure TranslationRecord where
  value : String
  original : String
  context : Option String
  locked : Bool
deriving DecidableEq, Repr

/-- Modelled from the spec: `needs_translation` per spec §4.1 steps 1-3 — true
when no record exists; false unconditionally for the primary language when a
value is present; otherwise true unless both `record.original == entry.value`
and `record.context == entry.context`; and forced false when `record.locked`. -/
def specNeedsTranslation (isPrimary : Bool) (rec0 : Option TranslationRecord)
    (e : Entry) : Bool :=
  match rec0 with
  | none => true
  | some r =>
      if r.locked then false
      else if isPrimary then false
      else !decide (r.original = e.value ∧ r.context = e.context)

/-- Modelled from the spec: spec §4.1 steps 4-5 — on success set
`value`/`original`/`context` from the entry, preserving `locked`; on failure
fall back to the source text as the degraded value (§7) without touching the
drift metadata (§3 invariant); when not needed, carry the record forward
unchanged. A failure on a never-translated key creates a degraded placeholder
record (the spec leaves this corner open; any choice works for the claims
proved below, which concern locked records and hence the unchanged branch). -/
def specReconcileEntry (oracle : Entry → Option String) (isPrimary : Bool)
    (store : List (String × TranslationRecord)) (e : Entry) :
    List (String × TranslationRecord) :=
  let rec0 := dictGet store e.key
  if specNeedsTranslation isPrimary rec0 e then
    match oracle e with
    | some t =>
        dictSet store e.key ⟨t, e.value, e.context, ((rec0.map TranslationRecord.locked).getD false)⟩
    | none =>
        match rec0 with
        | some r => dictSet store e.key ⟨e.value, r.original, r.context, r.locked⟩
        | none => dictSet store e.key ⟨e.value, e.value, e.context, false⟩
  else store

/-- Modelled from the spec: one (namespace, language) reconciliation pass per
spec §4.1 — process every entry, then prune every record whose key is not in
the current entry set (step 6). -/
def specReconcilePass (oracle : Entry → Option String) (isPrimary : Bool)
    (store : List (String × TranslationRecord)) (entries : List Entry) :
    List (String × TranslationRecord) :=
  (entries.foldl (specReconcileEntry oracle isPrimary) store).filter
    (fun kv => decide (kv.1 ∈ entries.map Entry.key))

/-! ## Lemmas: Python-dict association lists -/

theorem dictGet_dictSet_self {α : Type} (d : List (String × α)) (k : String) (v : α) :
    dictGet (dictSet d k v) k = some v := by
  induction d with
  | nil => simp [dictGet, dictSet]
  | cons hd tl ih =>
      obtain ⟨k', v'⟩ := hd
      by_cases hk : k' = k
      · simp [dictGet, dictSet, hk]
      · simp [dictGet, dictSet, hk, ih]

theorem dictGet_dictSet_ne {α : Type} (d : List (String × α)) {k k' : String} (v : α)
    (hne : k' ≠ k) : dictGet (dictSet d k' v) k = dictGet d k := by
  induction d with
  | nil => simp [dictGet, dictSet, hne]
  | cons hd tl ih =>
      obtain ⟨k0, v0⟩ := hd
      by_cases hk : k0 = k'
      · subst hk
        simp [dictGet, dictSet, hne]
      · simp only [dictSet, if_neg hk]
        by_cases hk2 : k0 = k
        · simp [dictGet, hk2]
        · simp [dictGet, hk2, ih]

theorem dictSet_eq_self {α : Type} {d : List (String × α)} {k : String} {v : α}
    (hget : dictGet d k = some v) : dictSet d k v = d := by
  induction d with
  | nil => simp [dictGet] at hget
  | cons hd tl ih =>
      obtain ⟨k0, v0⟩ := hd
      by_cases hk : k0 = k
      · subst hk
        have hv : v0 = v := by simpa [dictGet] using hget
        simp [dictSet, hv]
      · simp only [dictGet, if_neg hk] at hget
        simp [dictSet, hk, ih hget]

theorem dictGet_dictSet_isSome {α : Type} (d : List (String × α)) (k k' : String) (v : α) :
    (dictGet (dictSet d k' v) k).isSome
      = (decide (k = k') || (dictGet d k).isSome) := by
  by_cases hk : k = k'
  · subst hk
    simp [dictGet_dictSet_self]
  · rw [dictGet_dictSet_ne d v (fun hh => hk hh.symm)]
    simp [hk]

theorem keys_dictSet_mem {α : Type} (d : List (String × α)) (k : String) (v : α)
    (hmem : k ∈ d.map Prod.fst) :
    (dictSet d k v).map Prod.fst = d.map Prod.fst := by
  induction d with
  | nil => simp at hmem
  | cons hd tl ih =>
      obtain ⟨k0, v0⟩ := hd
      by_cases hk : k0 = k
      · subst hk
        simp [dictSet]
      · simp only [List.map_cons, List.mem_cons] at hmem
        rcases hmem with hmem | hmem
        · exact absurd hmem.symm hk
        · simp [dictSet, hk, ih hmem]

theorem keys_dictSet_not_mem {α : Type} (d : List (String × α)) (k : String) (v : α)
    (hmem : k ∉ d.map Prod.fst) :
    (dictSet d k v).map Prod.fst = d.map Prod.fst ++ [k] := by
  induction d with
  | nil => simp [dictSet]
  | cons hd tl ih =>
      obtain ⟨k0, v0⟩ := hd
      simp only [List.map_cons, List.mem_cons] at hmem
      push_neg at hmem
      have hk : k0 ≠ k := fun hh => hmem.1 hh.symm
      simp [dictSet, hk, ih hmem.2]

theorem dictGet_filter {α : Type} (p : String × α → Bool) (d : List (String × α))
    (k : String) (hp : ∀ v : α, p (k, v) = true) :
    dictGet (d.filter p) k = dictGet d k := by
  induction d with
  | nil => rfl
  | cons hd tl ih =>
      obtain ⟨k0, v0⟩ := hd
      by_cases hk : k0 = k
      · subst hk
        simp [List.filter_cons, hp v0, dictGet]
      · by_cases hpv : p (k0, v0)
        · simp [List.filter_cons, hpv, dictGet, hk, ih]
        · simp only [List.filter_cons, Bool.if_false_right]
          rw [if_neg (by simpa using hpv)]
          simp [dictGet, hk, ih]

/-! ## Lemmas: the reconciliation engine of `main.py` -/

theorem needsTranslation_eq_false_of_settled (h : String → String) (p : Bool)
    (st : PassState) (e : Entry) (hs : settled h p st e) :
    needsTranslation h p st e = false := by
  obtain ⟨v, hv, hne, hc, hp⟩ := hs
  cases p with
  | false => simp [needsTranslation, hv, hc, hne]
  | true =>
      have hveq : v = e.value := hp rfl
      subst hveq
      simp [needsTranslation, hne]

theorem processEntry_of_settled (h : String → String)
    (o : String → Option String → Option String) (p : Bool) (st : PassState)
    (e : Entry) (hs : settled h p st e) :
    processEntry h o p st e = (st, false) := by
  obtain ⟨v, hv, hne, hc, hp⟩ := hs
  have hn : needsTranslation h p st e = false :=
    needsTranslation_eq_false_of_settled h p st e ⟨v, hv, hne, hc, hp⟩
  cases p with
  | false =>
      simp only [processEntry, hn, Bool.false_eq_true, if_false, hv, Option.getD_some,
        if_false]
      rw [dictSet_eq_self hv, dictSet_eq_self hc]
  | true =>
      have hveq : v = e.value := hp rfl
      subst hveq
      simp only [processEntry, hn, Bool.false_eq_true, if_false, if_true, Option.getD_some,
        if_true]
      rw [dictSet_eq_self hv, dictSet_eq_self hc]

theorem processPass_of_settled (h : String → String)
    (o : String → Option String → Option String) (p : Bool) (st : PassState)
    (entries : List Entry) (hs : ∀ e ∈ entries, settled h p st e) :
    processPass h o p st entries = (st, 0) := by
  induction entries with
  | nil => rfl
  | cons e rest ih =>
      have he := hs e (List.mem_cons_self e rest)
      have hrest : ∀ e' ∈ rest, settled h p st e' :=
        fun e' h' => hs e' (List.mem_cons_of_mem e h')
      simp [processPass, processEntry_of_settled h o p st e he, ih hrest]

theorem processPass_preserves_other (h : String → String)
    (o : String → Option String → Option String) (p : Bool) (st : PassState)
    (entries : List Entry) (k : String) (hk : ∀ e ∈ entries, e.key ≠ k) :
    dictGet (processPass h o p st entries).1.translations k = dictGet st.translations k ∧
    dictGet (processPass h o p st entries).1.cache k = dictGet st.cache k := by
  induction entries generalizing st with
  | nil => exact ⟨rfl, rfl⟩
  | cons e rest ih =>
      have h1 : e.key ≠ k := hk e (List.mem_cons_self e rest)
      have hrest := ih ((processEntry h o p st e).1)
        (fun e' h' => hk e' (List.mem_cons_of_mem e h'))
      constructor
      · rw [show (processPass h o p st (e :: rest)).1
            = (processPass h o p (processEntry h o p st e).1 rest).1 from rfl]
        rw [hrest.1]
        exact dictGet_dictSet_ne st.translations _ h1
      · rw [show (processPass h o p st (e :: rest)).1
            = (processPass h o p (processEntry h o p st e).1 rest).1 from rfl]
        rw [hrest.2]
        exact dictGet_dictSet_ne st.cache _ h1

theorem needsTranslation_false_elim (h : String → String) (p : Bool) (st : PassState)
    (e : Entry) (hn : needsTranslation h p st e = false) :
    ∃ t, (if p then some e.value else dictGet st.translations e.key) = some t ∧ t ≠ "" := by
  by_cases hp : p = true
  · subst hp
    refine ⟨e.value, by simp, ?_⟩
    intro he
    rw [needsTranslation] at hn
    simp [he] at hn
  · have hp' : p = false := by simpa using hp
    subst hp'
    rw [needsTranslation] at hn
    simp only [Bool.false_eq_true, if_false] at hn ⊢
    cases hcur : dictGet st.translations e.key with
    | none => rw [hcur] at hn; simp at hn
    | some t =>
        refine ⟨t, rfl, ?_⟩
        intro he
        subst he
        rw [hcur] at hn
        simp at hn

theorem primary_needsTranslation_false (h : String → String) (st : PassState)
    (e : Entry) (hval : e.value ≠ "") : needsTranslation h true st e = false := by
  simp [needsTranslation, hval]

theorem settled_after_entry (h : String → String)
    (o : String → Option String → Option String) (p : Bool) (st : PassState)
    (e : Entry) (hval : e.value ≠ "") :
    settled h p (processEntry h o p st e).1 e := by
  by_cases hn : needsTranslation h p st e = true
  · -- translation attempted: the updated value is the oracle result or the
    -- source-text fallback, never empty since e.value is not empty
    cases horacle : o e.value e.context with
    | none =>
        refine ⟨e.value, ?_, hval, ?_, fun _ => rfl⟩
        · simp [processEntry, hn, horacle, dictGet_dictSet_self]
        · simp [processEntry, hn, horacle, dictGet_dictSet_self]
    | some t =>
        by_cases ht : t = ""
        · subst ht
          refine ⟨e.value, ?_, hval, ?_, fun _ => rfl⟩
          · simp [processEntry, hn, horacle, dictGet_dictSet_self]
          · simp [processEntry, hn, horacle, dictGet_dictSet_self]
        · by_cases hp : p = true
          · -- the primary language needs translation only for an empty source
            -- value, which hval excludes
            subst hp
            exact absurd (primary_needsTranslation_false h st e hval) (by simp [hn])
          · have hp' : p = false := by simpa using hp
            subst hp'
            refine ⟨t, ?_, ht, ?_, by simp⟩
            · simp [processEntry, hn, horacle, ht, dictGet_dictSet_self]
            · simp [processEntry, hn, horacle, ht, dictGet_dictSet_self]
  · have hn' : needsTranslation h p st e = false := by simpa using hn
    obtain ⟨t, hcur, ht⟩ := needsTranslation_false_elim h p st e hn'
    have hupd : (processEntry h o p st e).1.translations
        = dictSet st.translations e.key t ∧
        (processEntry h o p st e).1.cache
        = dictSet st.cache e.key ⟨some (h (inputText e)), some (h t)⟩ := by
      constructor
      · simp [processEntry, hn', hcur]
      · simp [processEntry, hn', hcur]
    refine ⟨t, ?_, ht, ?_, ?_⟩
    · rw [hupd.1]; exact dictGet_dictSet_self _ _ _
    · rw [hupd.2]; exact dictGet_dictSet_self _ _ _
    · intro hp
      subst hp
      exact (by simpa using hcur : e.value = t).symm

theorem settled_after_pass (h : String → String)
    (o : String → Option String → Option String) (p : Bool) (st : PassState)
    (entries : List Entry) (hnd : (entries.map Entry.key).Nodup)
    (hval : ∀ e ∈ entries, e.value ≠ "") :
    ∀ e ∈ entries, settled h p (processPass h o p st entries).1 e := by
  induction entries generalizing st with
  | nil => intro e he; simp at he
  | cons e0 rest ih =>
      intro e he
      have hpass : (processPass h o p st (e0 :: rest)).1
          = (processPass h o p (processEntry h o p st e0).1 rest).1 := rfl
      rcases List.mem_cons.mp he with he0 | hrest
      · subst he0
        have hset := settled_after_entry h o p st e
          (hval e (List.mem_cons_self e rest))
        obtain ⟨v, hv1, hv2, hv3, hv4⟩ := hset
        have hkeys : ∀ e' ∈ rest, e'.key ≠ e.key := by
          intro e' h' heq
          simp only [List.map_cons, List.nodup_cons] at hnd
          exact hnd.1 (heq ▸ List.mem_map_of_mem Entry.key h')
        have hpres := processPass_preserves_other h o p
          (processEntry h o p st e).1 rest e.key hkeys
        rw [hpass]
        exact ⟨v, by rw [hpres.1]; exact hv1, hv2, by rw [hpres.2]; exact hv3, hv4⟩
      · rw [hpass]
        exact ih (processEntry h o p st e0).1
          (by simp only [List.map_cons, List.nodup_cons] at hnd; exact hnd.2)
          (fun e' h' => hval e' (List.mem_cons_of_mem e0 h')) e hrest

theorem runNamespaces_preserves_store_other (h : String → String)
    (o : String → Option String → Option String) (p : Bool) (st : RunState)
    (nss : List (String × List Entry)) (ns : String)
    (hns : ∀ x ∈ nss, x.1 ≠ ns) :
    dictGet (runNamespaces h o p st nss).1.stores ns = dictGet st.stores ns := by
  induction nss generalizing st with
  | nil => rfl
  | cons x rest ih =>
      obtain ⟨ns0, es0⟩ := x
      have h0 : ns0 ≠ ns := hns (ns0, es0) (List.mem_cons_self _ _)
      rw [show (runNamespaces h o p st ((ns0, es0) :: rest)).1
          = (runNamespaces h o p
              ⟨(processPass h o p ⟨(dictGet st.stores ns0).getD [], st.cache⟩ es0).1.cache,
               dictSet st.stores ns0
                 (processPass h o p ⟨(dictGet st.stores ns0).getD [], st.cache⟩ es0).1.translations⟩
              rest).1 from rfl]
      rw [ih _ (fun x' h' => hns x' (List.mem_cons_of_mem _ h'))]
      exact dictGet_dictSet_ne st.stores _ h0

theorem runNamespaces_preserves_cache_key (h : String → String)
    (o : String → Option String → Option String) (p : Bool) (st : RunState)
    (nss : List (String × List Entry)) (k : String)
    (hk : ∀ x ∈ nss, ∀ e ∈ x.2, e.key ≠ k) :
    dictGet (runNamespaces h o p st nss).1.cache k = dictGet st.cache k := by
  induction nss generalizing st with
  | nil => rfl
  | cons x rest ih =>
      obtain ⟨ns0, es0⟩ := x
      rw [show (runNamespaces h o p st ((ns0, es0) :: rest)).1
          = (runNamespaces h o p
              ⟨(processPass h o p ⟨(dictGet st.stores ns0).getD [], st.cache⟩ es0).1.cache,
               dictSet st.stores ns0
                 (processPass h o p ⟨(dictGet st.stores ns0).getD [], st.cache⟩ es0).1.translations⟩
              rest).1 from rfl]
      rw [ih _ (fun x' h' => hk x' (List.mem_cons_of_mem _ h'))]
      exact (processPass_preserves_other h o p _ es0 k
        (fun e he => hk (ns0, es0) (List.mem_cons_self _ _) e he)).2

theorem runNamespaces_of_settled (h : String → String)
    (o : String → Option String → Option String) (p : Bool) (st : RunState)
    (nss : List (String × List Entry))
    (hsome : ∀ x ∈ nss, (dictGet st.stores x.1).isSome = true)
    (hs : ∀ x ∈ nss, ∀ e ∈ x.2,
      settled h p ⟨(dictGet st.stores x.1).getD [], st.cache⟩ e) :
    runNamespaces h o p st nss = (st, 0) := by
  induction nss with
  | nil => rfl
  | cons x rest ih =>
      obtain ⟨ns0, es0⟩ := x
      obtain ⟨s0, hs0⟩ := Option.isSome_iff_exists.mp
        (hsome (ns0, es0) (List.mem_cons_self _ _))
      have hpass := processPass_of_settled h o p
        ⟨(dictGet st.stores ns0).getD [], st.cache⟩ es0
        (hs (ns0, es0) (List.mem_cons_self _ _))
      have hst2 : (⟨(processPass h o p ⟨(dictGet st.stores ns0).getD [], st.cache⟩ es0).1.cache,
          dictSet st.stores ns0
            (processPass h o p
              ⟨(dictGet st.stores ns0).getD [], st.cache⟩ es0).1.translations⟩ : RunState)
          = st := by
        rw [hpass]
        show (⟨st.cache, dictSet st.stores ns0 ((dictGet st.stores ns0).getD [])⟩ : RunState) = st
        rw [hs0]
        show (⟨st.cache, dictSet st.stores ns0 s0⟩ : RunState) = st
        rw [dictSet_eq_self hs0]
      have hrest := ih (fun x' h' => hsome x' (List.mem_cons_of_mem _ h'))
        (fun x' h' => hs x' (List.mem_cons_of_mem _ h'))
      show ((runNamespaces h o p _ rest).1,
        (processPass h o p ⟨(dictGet st.stores ns0).getD [], st.cache⟩ es0).2
          + (runNamespaces h o p _ rest).2) = (st, 0)
      rw [hst2, hrest, hpass]
      simp

theorem settled_after_run (h : String → String)
    (o : String → Option String → Option String) (p : Bool) (st : RunState)
    (nss : List (String × List Entry))
    (hnd : (nss.map Prod.fst).Nodup)
    (hknd : ∀ x ∈ nss, (x.2.map Entry.key).Nodup)
    (hdisj : List.Pairwise (fun a b => ∀ k ∈ a.2.map Entry.key, k ∉ b.2.map Entry.key) nss)
    (hval : ∀ x ∈ nss, ∀ e ∈ x.2, e.value ≠ "") :
    (∀ x ∈ nss, (dictGet (runNamespaces h o p st nss).1.stores x.1).isSome = true) ∧
    (∀ x ∈ nss, ∀ e ∈ x.2,
      settled h p ⟨(dictGet (runNamespaces h o p st nss).1.stores x.1).getD [],
        (runNamespaces h o p st nss).1.cache⟩ e) := by
  induction nss generalizing st with
  | nil => exact ⟨fun x hx => by simp at hx, fun x hx => by simp at hx⟩
  | cons x rest ih =>
      obtain ⟨ns0, es0⟩ := x
      have hrun : (runNamespaces h o p st ((ns0, es0) :: rest)).1
          = (runNamespaces h o p
              ⟨(processPass h o p ⟨(dictGet st.stores ns0).getD [], st.cache⟩ es0).1.cache,
               dictSet st.stores ns0
                 (processPass h o p ⟨(dictGet st.stores ns0).getD [], st.cache⟩ es0).1.translations⟩
              rest).1 := rfl
      have hnd' : (rest.map Prod.fst).Nodup := by
        simp only [List.map_cons, List.nodup_cons] at hnd; exact hnd.2
      have hns0 : ∀ x' ∈ rest, x'.1 ≠ ns0 := by
        intro x' h' heq
        simp only [List.map_cons, List.nodup_cons] at hnd
        exact hnd.1 (heq ▸ List.mem_map_of_mem Prod.fst h')
      have hstore0 : dictGet (runNamespaces h o p st ((ns0, es0) :: rest)).1.stores ns0
          = some (processPass h o p
              ⟨(dictGet st.stores ns0).getD [], st.cache⟩ es0).1.translations := by
        rw [hrun, runNamespaces_preserves_store_other h o p _ rest ns0 hns0]
        exact dictGet_dictSet_self _ _ _
      have hcache0 : ∀ e ∈ es0,
          dictGet (runNamespaces h o p st ((ns0, es0) :: rest)).1.cache e.key
            = dictGet (processPass h o p
                ⟨(dictGet st.stores ns0).getD [], st.cache⟩ es0).1.cache e.key := by
        intro e he
        have hdisj0 : ∀ x' ∈ rest, ∀ e' ∈ x'.2, e'.key ≠ e.key := by
          intro x' h' e' h'' heq
          have := (List.pairwise_cons.mp hdisj).1 x' h' e.key
            (List.mem_map_of_mem Entry.key he)
          exact this (heq ▸ List.mem_map_of_mem Entry.key h'')
        rw [hrun, runNamespaces_preserves_cache_key h o p _ rest e.key hdisj0]
      have hsettled0 := settled_after_pass h o p
        ⟨(dictGet st.stores ns0).getD [], st.cache⟩ es0
        (hknd (ns0, es0) (List.mem_cons_self _ _))
        (hval (ns0, es0) (List.mem_cons_self _ _))
      have hih := ih
        (⟨(processPass h o p ⟨(dictGet st.stores ns0).getD [], st.cache⟩ es0).1.cache,
          dictSet st.stores ns0
            (processPass h o p ⟨(dictGet st.stores ns0).getD [], st.cache⟩ es0).1.translations⟩)
        hnd' (fun x' h' => hknd x' (List.mem_cons_of_mem _ h'))
        (List.pairwise_cons.mp hdisj).2
        (fun x' h' => hval x' (List.mem_cons_of_mem _ h'))
      constructor
      · intro x' hx'
        rcases List.mem_cons.mp hx' with hx0 | hxr
        · subst hx0
          rw [hstore0]
          rfl
        · rw [hrun]
          exact hih.1 x' hxr
      · intro x' hx' e he
        rcases List.mem_cons.mp hx' with hx0 | hxr
        · subst hx0
          obtain ⟨v, hv1, hv2, hv3, hv4⟩ := hsettled0 e he
          refine ⟨v, ?_, hv2, ?_, hv4⟩
          · rw [hstore0]
            exact hv1
          · rw [hcache0 e he]
            exact hv3
        · rw [hrun]
          exact hih.2 x' hxr e he

theorem processPass_translations_isSome (h : String → String)
    (o : String → Option String → Option String) (p : Bool) (st : PassState)
    (entries : List Entry) (k : String) :
    (dictGet (processPass h o p st entries).1.translations k).isSome
      = ((dictGet st.translations k).isSome || decide (k ∈ entries.map Entry.key)) := by
  induction entries generalizing st with
  | nil => simp [processPass]
  | cons e rest ih =>
      rw [show (processPass h o p st (e :: rest)).1
          = (processPass h o p (processEntry h o p st e).1 rest).1 from rfl]
      rw [ih]
      rw [show (processEntry h o p st e).1.translations
          = dictSet st.translations e.key
              (if needsTranslation h p st e then
                match o e.value e.context with
                | some t => if t = "" then e.value else t
                | none => e.value
              else ((if p then some e.value else dictGet st.translations e.key).getD ""))
        from rfl]
      rw [dictGet_dictSet_isSome]
      by_cases hk : k = e.key
      · simp [hk]
      · simp [hk]

theorem processPass_keys (h : String → String)
    (o : String → Option String → Option String) (p : Bool) (st : PassState)
    (entries : List Entry) (hnd : (entries.map Entry.key).Nodup) :
    (processPass h o p st entries).1.translations.map Prod.fst
      = st.translations.map Prod.fst
        ++ (entries.map Entry.key).filter
            (fun k => !decide (k ∈ st.translations.map Prod.fst)) := by
  induction entries generalizing st with
  | nil => simp [processPass]
  | cons e rest ih =>
      rw [show (processPass h o p st (e :: rest)).1
          = (processPass h o p (processEntry h o p st e).1 rest).1 from rfl]
      have hnd' : (rest.map Entry.key).Nodup := by
        simp only [List.map_cons, List.nodup_cons] at hnd; exact hnd.2
      have hkeyne : e.key ∉ rest.map Entry.key := by
        simp only [List.map_cons, List.nodup_cons] at hnd; exact hnd.1
      rw [ih ((processEntry h o p st e).1) hnd']
      have htr : (processEntry h o p st e).1.translations
          = dictSet st.translations e.key
              (if needsTranslation h p st e then
                match o e.value e.context with
                | some t => if t = "" then e.value else t
                | none => e.value
              else ((if p then some e.value else dictGet st.translations e.key).getD "")) := rfl
      by_cases hmem : e.key ∈ st.translations.map Prod.fst
      · rw [htr, keys_dictSet_mem _ _ _ hmem]
        simp only [List.map_cons, List.filter_cons]
        rw [if_neg (by simp [hmem])]
      · rw [htr, keys_dictSet_not_mem _ _ _ hmem]
        simp only [List.map_cons, List.filter_cons]
        rw [if_pos (by simp [hmem])]
        rw [List.append_assoc]
        congr 1
        show [e.key] ++ _ = e.key :: _
        rw [List.singleton_append]
        congr 1
        apply List.filter_congr
        intro k hkmem
        have hne : k ≠ e.key := fun heq => hkeyne (heq ▸ hkmem)
        simp [hne]

/-! ## Lemmas: the spec-modelled reconciliation -/

theorem foldl_specReconcile_locked (oracle : Entry → Option String) (p : Bool)
    (entries : List Entry) (store : List (String × TranslationRecord)) (k : String)
    (r : TranslationRecord) (hget : dictGet store k = some r) (hlock : r.locked = true) :
    dictGet (entries.foldl (specReconcileEntry oracle p) store) k = some r := by
  induction entries generalizing store with
  | nil => exact hget
  | cons e rest ih =>
      rw [List.foldl_cons]
      apply ih
      by_cases hk : e.key = k
      · subst hk
        rw [show specReconcileEntry oracle p store e
            = if specNeedsTranslation p (dictGet store e.key) e then
                match oracle e with
                | some t => dictSet store e.key
                    ⟨t, e.value, e.context,
                      (((dictGet store e.key).map TranslationRecord.locked).getD false)⟩
                | none =>
                    match dictGet store e.key with
                    | some r' => dictSet store e.key ⟨e.value, r'.original, r'.context, r'.locked⟩
                    | none => dictSet store e.key ⟨e.value, e.value, e.context, false⟩
              else store from rfl]
        rw [hget]
        simp [specNeedsTranslation, hlock, hget]
      · rw [show specReconcileEntry oracle p store e
            = if specNeedsTranslation p (dictGet store e.key) e then
                match oracle e with
                | some t => dictSet store e.key
                    ⟨t, e.value, e.context,
                      (((dictGet store e.key).map TranslationRecord.locked).getD false)⟩
                | none =>
                    match dictGet store e.key with
                    | some r' => dictSet store e.key ⟨e.value, r'.original, r'.context, r'.locked⟩
                    | none => dictSet store e.key ⟨e.value, e.value, e.context, false⟩
              else store from rfl]
        split
        · split
          · rw [dictGet_dictSet_ne _ _ hk]; exact hget
          · split
            · rw [dictGet_dictSet_ne _ _ hk]; exact hget
            · rw [dictGet_dictSet_ne _ _ hk]; exact hget
        · exact hget

/-! ## Lemmas: the placeholder-tag substitutions -/

theorem subTagAux_skip (pre post : List Char) :
    ∀ (k : Nat) (l : List Char), subTagAux pre post k l = subTagAux pre post 0 (l.drop k) := by
  intro k
  induction k with
  | zero => intro l; rfl
  | succ k ih =>
      intro l
      cases l with
      | nil => rfl
      | cons c r =>
          show subTagAux pre post k r = _
          rw [ih r]
          rfl

theorem subTag_cons (pre post : List Char) (c : Char) (r : List Char) :
    subTag pre post (c :: r)
      = match tagSplit pre (c :: r) with
        | some (ds, r3) => '<' :: post ++ ds ++ '>' :: subTag pre post r3
        | none => c :: subTag pre post r := by
  show subTagAux pre post 0 (c :: r) = _
  rw [subTagAux, tagSplit]
  by_cases hcond : c = '<' ∧ pre.isPrefixOf r
      ∧ (r.drop pre.length).takeWhile Char.isDigit ≠ []
      ∧ ((r.drop pre.length).drop
          ((r.drop pre.length).takeWhile Char.isDigit).length).head? = some '>'
  · simp only [if_pos hcond]
    rw [subTagAux_skip]
    rfl
  · simp only [if_neg hcond]
    rfl

theorem tagSplit_none_of_ne (pre : List Char) (c : Char) (r : List Char) (hc : c ≠ '<') :
    tagSplit pre (c :: r) = none := by
  rw [tagSplit]
  rw [if_neg]
  intro hcond
  exact hc hcond.1

theorem takeWhile_all_append (p : Char → Bool) (a b : List Char)
    (ha : ∀ c ∈ a, p c = true) :
    (a ++ b).takeWhile p = a ++ b.takeWhile p := by
  induction a with
  | nil => rfl
  | cons c a' ih =>
      rw [List.cons_append, List.takeWhile_cons, if_pos (ha c (List.mem_cons_self _ _))]
      rw [ih (fun c' h' => ha c' (List.mem_cons_of_mem _ h'))]
      rfl

theorem tagSplit_some_elim (pre l : List Char) (ds r3 : List Char)
    (hsplit : tagSplit pre l = some (ds, r3)) :
    l = '<' :: (pre ++ ds ++ '>' :: r3) ∧ ds ≠ [] ∧ ∀ c ∈ ds, c.isDigit = true := by
  cases l with
  | nil => simp [tagSplit] at hsplit
  | cons c r =>
      rw [tagSplit] at hsplit
      split_ifs at hsplit with hcond
      · obtain ⟨hc, hpre, hds, hhead⟩ := hcond
        subst hc
        obtain ⟨r', hr'⟩ := List.isPrefixOf_iff_prefix.mp hpre
        subst hr'
        rw [List.drop_left] at hsplit hds hhead
        simp only [Option.some.injEq, Prod.mk.injEq] at hsplit
        obtain ⟨hds_eq, hr3⟩ := hsplit
        have hdw : ∀ (p : Char → Bool) (l : List Char),
            l.drop (l.takeWhile p).length = l.dropWhile p := by
          intro p l
          induction l with
          | nil => rfl
          | cons c r0 ih =>
              by_cases hc : p c
              · simp [List.takeWhile_cons, List.dropWhile_cons, hc, ih]
              · simp [List.takeWhile_cons, List.dropWhile_cons, hc]
        rw [hdw] at hhead
        obtain ⟨t, ht⟩ : ∃ t, r'.dropWhile Char.isDigit = '>' :: t := by
          cases hcase : r'.dropWhile Char.isDigit with
          | nil => rw [hcase] at hhead; simp at hhead
          | cons x xs =>
              rw [hcase] at hhead
              simp only [List.head?_cons, Option.some.injEq] at hhead
              exact ⟨xs, by rw [hhead]⟩
        have hr'_decomp : r' = ds ++ '>' :: t := by
          rw [← hds_eq, ← ht, List.takeWhile_append_dropWhile]
        have hr3t : t = r3 := by
          rw [hds_eq] at hr3
          rw [hr'_decomp] at hr3
          rw [show pre ++ (ds ++ '>' :: t) = (pre ++ ds ++ ['>']) ++ t by simp] at hr3
          rw [show pre.length + ds.length + 1 = (pre ++ ds ++ ['>']).length by
            simp only [List.length_append, List.length_cons, List.length_nil]] at hr3
          rw [List.drop_left] at hr3
          exact hr3
        refine ⟨?_, by rw [← hds_eq]; exact hds, ?_⟩
        · show '<' :: (pre ++ r') = _
          rw [hr'_decomp, hr3t]
          simp
        · intro c hc
          rw [← hds_eq] at hc
          exact List.mem_takeWhile_imp hc

theorem tagSplit_some_intro (pre : List Char) (ds r3 : List Char)
    (hds : ds ≠ []) (hdig : ∀ c ∈ ds, c.isDigit = true) :
    tagSplit pre ('<' :: (pre ++ ds ++ '>' :: r3)) = some (ds, r3) := by
  have hassoc : pre ++ ds ++ '>' :: r3 = pre ++ (ds ++ '>' :: r3) := by simp
  have hdrop : (pre ++ (ds ++ '>' :: r3)).drop pre.length = ds ++ '>' :: r3 :=
    List.drop_left pre _
  have htw : (ds ++ '>' :: r3).takeWhile Char.isDigit = ds := by
    rw [takeWhile_all_append _ _ _ hdig]
    rw [List.takeWhile_cons, if_neg (by decide)]
    simp
  have hdw : (ds ++ '>' :: r3).drop ds.length = '>' :: r3 := List.drop_left ds _
  have hpref : pre.isPrefixOf (pre ++ (ds ++ '>' :: r3)) = true :=
    List.isPrefixOf_iff_prefix.mpr ⟨ds ++ '>' :: r3, rfl⟩
  have hdropall : (pre ++ (ds ++ '>' :: r3)).drop (pre.length + ds.length + 1) = r3 := by
    rw [show pre ++ (ds ++ '>' :: r3) = (pre ++ (ds ++ ['>'])) ++ r3 by simp]
    rw [show pre.length + ds.length + 1 = (pre ++ (ds ++ ['>'])).length by
      simp only [List.length_append, List.length_cons, List.length_nil]
      omega]
    exact List.drop_left _ _
  rw [tagSplit, hassoc, hdrop, htw]
  rw [if_pos ⟨rfl, hpref, hds, by rw [hdw]; rfl⟩]
  rw [hdropall]

theorem subTag_append_nolt (pre post a b : List Char) (ha : ∀ c ∈ a, c ≠ '<') :
    subTag pre post (a ++ b) = a ++ subTag pre post b := by
  induction a with
  | nil => rfl
  | cons c a' ih =>
      rw [List.cons_append, subTag_cons,
        tagSplit_none_of_ne pre c _ (ha c (List.mem_cons_self _ _))]
      show c :: subTag pre post (a' ++ b) = _
      rw [ih (fun c' h' => ha c' (List.mem_cons_of_mem _ h'))]
      rfl

theorem hasTag_cons_false (pre : List Char) (c : Char) (r : List Char)
    (hht : hasTag pre (c :: r) = false) :
    tagSplit pre (c :: r) = none ∧ hasTag pre r = false := by
  rw [hasTag] at hht
  constructor
  · cases hsp : tagSplit pre (c :: r) with
    | none => rfl
    | some x => rw [hsp] at hht; simp at hht
  · simp only [Bool.or_eq_false_iff] at hht
    exact hht.2

theorem hasTag_append_false (pre a b : List Char) (hht : hasTag pre (a ++ b) = false) :
    hasTag pre b = false := by
  induction a with
  | nil => exact hht
  | cons c a' ih => exact ih (hasTag_cons_false pre c _ hht).2

theorem subTag_cons_ne_nil (pre post : List Char) (c : Char) (r : List Char) :
    subTag pre post (c :: r) ≠ [] := by
  rw [subTag_cons]
  cases hsp : tagSplit pre (c :: r) with
  | none => simp
  | some x => obtain ⟨ds, r3⟩ := x; simp

theorem subTag_lt_head (pre post : List Char) (r : List Char) :
    ∃ x, subTag pre post ('<' :: r) = '<' :: x := by
  rw [subTag_cons]
  cases hsp : tagSplit pre ('<' :: r) with
  | none => exact ⟨_, rfl⟩
  | some x => obtain ⟨ds, r3⟩ := x; exact ⟨_, rfl⟩

theorem dropWhile_head_not (p : Char → Bool) (l : List Char) (c : Char) (r : List Char)
    (hdw : l.dropWhile p = c :: r) : p c = false := by
  induction l with
  | nil => simp at hdw
  | cons x xs ih =>
      rw [List.dropWhile_cons] at hdw
      split_ifs at hdw with hx
      · exact ih hdw
      · injection hdw with h1 _
        rw [← h1]
        simpa using hx

theorem starts_append_mp : ∀ (a P X Y : List Char), (∀ c ∈ P, c ≠ '<') →
    (∀ x t, X = x :: t → x = '<') →
    (∃ t, a ++ X = P ++ t) → (∃ t, a ++ Y = P ++ t) := by
  intro a
  induction a with
  | nil =>
      intro P X Y hP hX hex
      obtain ⟨t, ht⟩ := hex
      cases P with
      | nil => exact ⟨Y, rfl⟩
      | cons p P' =>
          exfalso
          rw [List.nil_append, List.cons_append] at ht
          exact hP p (List.mem_cons_self _ _) (hX p _ ht)
  | cons c a' ih =>
      intro P X Y hP hX hex
      obtain ⟨t, ht⟩ := hex
      cases P with
      | nil => exact ⟨c :: a' ++ Y, by simp⟩
      | cons p P' =>
          rw [List.cons_append, List.cons_append] at ht
          injection ht with h1 h2
          obtain ⟨t', ht'⟩ := ih P' X Y
            (fun c' h' => hP c' (List.mem_cons_of_mem _ h')) hX ⟨t, h2⟩
          refine ⟨t', ?_⟩
          rw [List.cons_append, List.cons_append, h1, ht']

theorem starts_subTag_iff (pre post P l : List Char) (hP : ∀ c ∈ P, c ≠ '<') :
    (∃ t, subTag pre post l = P ++ t) ↔ (∃ t, l = P ++ t) := by
  have hdecomp : l = l.takeWhile (fun c => c != '<') ++ l.dropWhile (fun c => c != '<') :=
    (List.takeWhile_append_dropWhile (fun c => c != '<') l).symm
  have htwfree : ∀ c ∈ l.takeWhile (fun c => c != '<'), c ≠ '<' := by
    intro c hc
    have := List.mem_takeWhile_imp hc
    simpa using this
  have hsub : subTag pre post l
      = l.takeWhile (fun c => c != '<')
        ++ subTag pre post (l.dropWhile (fun c => c != '<')) := by
    conv in subTag pre post l => rw [hdecomp]
    exact subTag_append_nolt _ _ _ _ htwfree
  have hXsub : ∀ x t, subTag pre post (l.dropWhile (fun c => c != '<')) = x :: t → x = '<' := by
    intro x t hx
    cases hcase : l.dropWhile (fun c => c != '<') with
    | nil => rw [hcase] at hx; simp [subTag, subTagAux] at hx
    | cons c r =>
        have hc : c = '<' := by
          have := dropWhile_head_not _ l c r hcase
          simpa using this
        subst hc
        obtain ⟨x', hx'⟩ := subTag_lt_head pre post r
        rw [hcase, hx'] at hx
        injection hx with h1 _
        exact h1.symm
  have hXorig : ∀ x t, l.dropWhile (fun c => c != '<') = x :: t → x = '<' := by
    intro x t hx
    have := dropWhile_head_not _ l x t hx
    simpa using this
  constructor
  · intro hex
    rw [hsub] at hex
    have := starts_append_mp (l.takeWhile (fun c => c != '<')) P
      (subTag pre post (l.dropWhile (fun c => c != '<')))
      (l.dropWhile (fun c => c != '<')) hP hXsub hex
    rw [← hdecomp] at this
    exact this
  · intro hex
    rw [hdecomp] at hex
    have := starts_append_mp (l.takeWhile (fun c => c != '<')) P
      (l.dropWhile (fun c => c != '<'))
      (subTag pre post (l.dropWhile (fun c => c != '<'))) hP hXorig hex
    rw [← hsub] at this
    exact this

theorem digit_ne_lt (c : Char) (hc : c.isDigit = true) : c ≠ '<' := by
  rintro rfl
  exact absurd hc (by decide)

theorem digit_ne_slash (c : Char) (hc : c.isDigit = true) : c ≠ '/' := by
  rintro rfl
  exact absurd hc (by decide)

theorem tagSplit_isSome_subTag (pre2 : List Char) (hpre2 : ∀ c ∈ pre2, c ≠ '<')
    (pre post l : List Char) :
    (tagSplit pre2 ('<' :: subTag pre post l)).isSome
      = (tagSplit pre2 ('<' :: l)).isSome := by
  have hPfree : ∀ (ds : List Char), (∀ c ∈ ds, c.isDigit = true) →
      ∀ c ∈ pre2 ++ ds ++ ['>'], c ≠ '<' := by
    intro ds hdig c hc
    simp only [List.append_assoc, List.mem_append, List.mem_singleton] at hc
    rcases hc with hc | hc | hc
    · exact hpre2 c hc
    · exact digit_ne_lt c (hdig c hc)
    · subst hc; decide
  have hiff : (∃ y, tagSplit pre2 ('<' :: subTag pre post l) = some y)
      ↔ (∃ y, tagSplit pre2 ('<' :: l) = some y) := by
    constructor
    · rintro ⟨⟨ds, r3⟩, hy⟩
      obtain ⟨hdec, hds, hdig⟩ := tagSplit_some_elim _ _ _ _ hy
      injection hdec with _ hdec2
      have hstart : ∃ t, subTag pre post l = (pre2 ++ ds ++ ['>']) ++ t :=
        ⟨r3, by rw [hdec2]; simp⟩
      obtain ⟨t, ht⟩ := (starts_subTag_iff pre post _ l (hPfree ds hdig)).mp hstart
      refine ⟨(ds, t), ?_⟩
      rw [ht, show (pre2 ++ ds ++ ['>']) ++ t = pre2 ++ ds ++ '>' :: t by simp]
      exact tagSplit_some_intro pre2 ds t hds hdig
    · rintro ⟨⟨ds, r3⟩, hy⟩
      obtain ⟨hdec, hds, hdig⟩ := tagSplit_some_elim _ _ _ _ hy
      injection hdec with _ hdec2
      have hstart : ∃ t, l = (pre2 ++ ds ++ ['>']) ++ t :=
        ⟨r3, by rw [hdec2]; simp⟩
      obtain ⟨t, ht⟩ := (starts_subTag_iff pre post _ l (hPfree ds hdig)).mpr hstart
      refine ⟨(ds, t), ?_⟩
      rw [ht, show (pre2 ++ ds ++ ['>']) ++ t = pre2 ++ ds ++ '>' :: t by simp]
      exact tagSplit_some_intro pre2 ds t hds hdig
  cases hA : tagSplit pre2 ('<' :: subTag pre post l) with
  | some y =>
      obtain ⟨y', hy'⟩ := hiff.mp ⟨y, hA⟩
      rw [hy']
      rfl
  | none =>
      cases hB : tagSplit pre2 ('<' :: l) with
      | none => rfl
      | some y =>
          obtain ⟨y', hy'⟩ := hiff.mpr ⟨y, hB⟩
          rw [hy'] at hA
          cases hA

theorem subTag_left_inverse_fuel (pre post : List Char) (hpost : ∀ c ∈ post, c ≠ '<') :
    ∀ (n : Nat) (l : List Char), l.length ≤ n → hasTag post l = false →
      subTag post pre (subTag pre post l) = l := by
  intro n
  induction n with
  | zero =>
      intro l hl _
      have hnil : l = [] := List.length_eq_zero.mp (Nat.le_zero.mp hl)
      subst hnil
      rfl
  | succ n ih =>
      intro l hl hno
      cases l with
      | nil => rfl
      | cons c r =>
          have hlr : r.length ≤ n := by
            simp only [List.length_cons] at hl
            omega
          by_cases hc : c = '<'
          · subst hc
            cases hsp : tagSplit pre ('<' :: r) with
            | some x =>
                obtain ⟨ds, r3⟩ := x
                obtain ⟨hdec, hds, hdig⟩ := tagSplit_some_elim _ _ _ _ hsp
                injection hdec with _ hr
                have hshape : subTag pre post ('<' :: r)
                    = '<' :: (post ++ ds ++ '>' :: subTag pre post r3) := by
                  rw [subTag_cons, hsp]
                  show ('<' :: post) ++ ds ++ ('>' :: subTag pre post r3) = _
                  simp
                rw [hshape, subTag_cons,
                  tagSplit_some_intro post ds (subTag pre post r3) hds hdig]
                show ('<' :: pre) ++ ds ++ ('>' :: subTag post pre (subTag pre post r3))
                    = '<' :: r
                have hlen3 : r3.length ≤ n := by
                  have h2 : r.length = pre.length + ds.length + 1 + r3.length := by
                    rw [hr]
                    simp only [List.length_append, List.length_cons]
                    omega
                  omega
                have hno3 : hasTag post r3 = false := by
                  have htail : hasTag post r = false := (hasTag_cons_false post '<' r hno).2
                  rw [hr] at htail
                  exact hasTag_append_false post (pre ++ ds ++ ['>']) r3
                    (by rw [show (pre ++ ds ++ ['>']) ++ r3 = pre ++ ds ++ '>' :: r3 by simp]
                        exact htail)
                rw [ih r3 hlen3 hno3, hr]
                simp
            | none =>
                rw [subTag_cons, hsp]
                show subTag post pre ('<' :: subTag pre post r) = _
                have hnone : tagSplit post ('<' :: subTag pre post r) = none := by
                  have htrans := tagSplit_isSome_subTag post hpost pre post r
                  have h0 : (tagSplit post ('<' :: r)).isSome = false := by
                    rw [(hasTag_cons_false post '<' r hno).1]
                    rfl
                  rw [h0] at htrans
                  cases hx : tagSplit post ('<' :: subTag pre post r) with
                  | none => rfl
                  | some y => rw [hx] at htrans; simp at htrans
                rw [subTag_cons, hnone]
                show '<' :: subTag post pre (subTag pre post r) = _
                rw [ih r hlr (hasTag_cons_false post '<' r hno).2]
          · rw [subTag_cons, tagSplit_none_of_ne pre c r hc]
            show subTag post pre (c :: subTag pre post r) = _
            rw [subTag_cons, tagSplit_none_of_ne post c _ hc]
            show c :: subTag post pre (subTag pre post r) = _
            rw [ih r hlr (hasTag_cons_false post c r hno).2]

theorem subTag_left_inverse (pre post : List Char) (hpost : ∀ c ∈ post, c ≠ '<')
    (l : List Char) (hno : hasTag post l = false) :
    subTag post pre (subTag pre post l) = l :=
  subTag_left_inverse_fuel pre post hpost l.length l le_rfl hno

theorem tagSplit_none_not_pre (pre : List Char) (c : Char) (r : List Char)
    (hnp : pre.isPrefixOf r = false) : tagSplit pre (c :: r) = none := by
  rw [tagSplit]
  rw [if_neg]
  intro hcond
  rw [hnp] at hcond
  exact absurd hcond.2.1 (by simp)

theorem slash_not_pre_tagChars (z : List Char) :
    (['/'] : List Char).isPrefixOf (tagChars ++ z) = false := by
  show (['/'] : List Char).isPrefixOf ('t' :: (['a', 'g', '_'] ++ z)) = false
  have hne : (('/' : Char) == 't') = false := by decide
  simp [List.isPrefixOf, hne]

theorem slash_not_pre_digit (d : Char) (hd : d.isDigit = true) (z : List Char) :
    (['/'] : List Char).isPrefixOf (d :: z) = false := by
  have hne : (('/' : Char) == d) = false :=
    beq_eq_false_iff_ne.mpr (Ne.symm (digit_ne_slash d hd))
  simp [List.isPrefixOf, hne]

theorem tagChars_not_pre_slash (z : List Char) :
    tagChars.isPrefixOf ('/' :: z) = false := by
  show ('t' :: ['a', 'g', '_']).isPrefixOf ('/' :: z) = false
  have hne : (('t' : Char) == '/') = false := by decide
  simp [List.isPrefixOf, hne]

theorem tagChars_nolt : ∀ c ∈ tagChars, c ≠ '<' := by
  intro c hc
  rw [tagChars] at hc
  fin_cases hc <;> decide

theorem nolt_append (a b : List Char) (ha : ∀ c ∈ a, c ≠ '<') (hb : ∀ c ∈ b, c ≠ '<') :
    ∀ c ∈ a ++ b, c ≠ '<' := by
  intro c hc
  rcases List.mem_append.mp hc with hc | hc
  · exact ha c hc
  · exact hb c hc

theorem nolt_cons (c0 : Char) (h0 : c0 ≠ '<') (l : List Char) (hl : ∀ c ∈ l, c ≠ '<') :
    ∀ c ∈ c0 :: l, c ≠ '<' := by
  intro c hc
  rcases List.mem_cons.mp hc with hc | hc
  · subst hc; exact h0
  · exact hl c hc

theorem nolt_nil : ∀ c ∈ ([] : List Char), c ≠ '<' := by
  intro c hc
  simp at hc

theorem nolt_digits (ds : List Char) (hdig : ∀ c ∈ ds, c.isDigit = true) :
    ∀ c ∈ ds, c ≠ '<' :=
  fun c hc => digit_ne_lt c (hdig c hc)

theorem nolt_gt : ∀ c ∈ (['>'] : List Char), c ≠ '<' :=
  nolt_cons '>' (by decide) [] nolt_nil

theorem unesc_open_comm_fuel :
    ∀ (n : Nat) (s : List Char), s.length ≤ n → hasTag tagChars s = false →
      subTag tagChars [] (subTag ['/'] ('/' :: tagChars) (subTag [] tagChars s))
        = subTag ['/'] ('/' :: tagChars) s := by
  intro n
  induction n with
  | zero =>
      intro s hl _
      have hnil : s = [] := List.length_eq_zero.mp (Nat.le_zero.mp hl)
      subst hnil
      rfl
  | succ n ih =>
      intro s hl hno
      cases s with
      | nil => rfl
      | cons c r =>
          have hlr : r.length ≤ n := by
            simp only [List.length_cons] at hl
            omega
          by_cases hc : c = '<'
          · subst hc
            cases hspA : tagSplit [] ('<' :: r) with
            | some x =>
                -- an open tag `<ds>` at the head
                obtain ⟨ds, r3⟩ := x
                obtain ⟨hdec, hds, hdig⟩ := tagSplit_some_elim _ _ _ _ hspA
                injection hdec with _ hr
                rw [List.nil_append] at hr
                obtain ⟨d, ds', rfl⟩ := List.exists_cons_of_ne_nil hds
                have hdsfree : ∀ c ∈ (d :: ds'), c ≠ '<' :=
                  fun c hcm => digit_ne_lt c (hdig c hcm)
                have hlen3 : r3.length ≤ n := by
                  have h2 : r.length = (d :: ds').length + 1 + r3.length := by
                    rw [hr]
                    simp only [List.length_append, List.length_cons]
                    omega
                  omega
                have hno3 : hasTag tagChars r3 = false := by
                  have htail : hasTag tagChars r = false :=
                    (hasTag_cons_false tagChars '<' r hno).2
                  rw [hr] at htail
                  exact hasTag_append_false tagChars ((d :: ds') ++ ['>']) r3
                    (by rw [show ((d :: ds') ++ ['>']) ++ r3 = (d :: ds') ++ '>' :: r3 by simp]
                        exact htail)
                have hshapeA : subTag [] tagChars ('<' :: r)
                    = '<' :: (tagChars ++ (d :: ds') ++ '>' :: subTag [] tagChars r3) := by
                  rw [subTag_cons, hspA]
                  show ('<' :: tagChars) ++ (d :: ds') ++ ('>' :: subTag [] tagChars r3) = _
                  simp
                rw [hshapeA]
                have hspB1 : tagSplit ['/']
                    ('<' :: (tagChars ++ (d :: ds') ++ '>' :: subTag [] tagChars r3)) = none := by
                  apply tagSplit_none_not_pre
                  rw [show tagChars ++ (d :: ds') ++ '>' :: subTag [] tagChars r3
                      = tagChars ++ ((d :: ds') ++ '>' :: subTag [] tagChars r3) by simp]
                  exact slash_not_pre_tagChars _
                rw [subTag_cons, hspB1]
                show subTag tagChars []
                    ('<' :: subTag ['/'] ('/' :: tagChars)
                      (tagChars ++ (d :: ds') ++ '>' :: subTag [] tagChars r3)) = _
                have hpassB : subTag ['/'] ('/' :: tagChars)
                    (tagChars ++ (d :: ds') ++ '>' :: subTag [] tagChars r3)
                    = tagChars ++ (d :: ds')
                      ++ '>' :: subTag ['/'] ('/' :: tagChars) (subTag [] tagChars r3) := by
                  rw [show tagChars ++ (d :: ds') ++ '>' :: subTag [] tagChars r3
                      = (tagChars ++ (d :: ds') ++ ['>']) ++ subTag [] tagChars r3 by simp]
                  rw [subTag_append_nolt _ _ _ _
                    (nolt_append _ _ (nolt_append _ _ tagChars_nolt
                      (nolt_digits _ hdig)) nolt_gt)]
                  simp
                rw [hpassB]
                rw [subTag_cons, tagSplit_some_intro tagChars (d :: ds') _ hds hdig]
                show ('<' :: []) ++ (d :: ds')
                    ++ ('>' :: subTag tagChars []
                        (subTag ['/'] ('/' :: tagChars) (subTag [] tagChars r3))) = _
                rw [ih r3 hlen3 hno3]
                -- right-hand side: escC leaves the rewritten open tag `<ds>` alone
                have hspB2 : tagSplit ['/'] ('<' :: r) = none := by
                  apply tagSplit_none_not_pre
                  rw [hr]
                  rw [show (d :: ds') ++ '>' :: r3 = d :: (ds' ++ '>' :: r3) by simp]
                  exact slash_not_pre_digit d (hdig d (List.mem_cons_self _ _)) _
                rw [subTag_cons, hspB2]
                show _ = '<' :: subTag ['/'] ('/' :: tagChars) r
                rw [hr]
                rw [show (d :: ds') ++ '>' :: r3 = ((d :: ds') ++ ['>']) ++ r3 by simp]
                rw [subTag_append_nolt _ _ _ _
                  (nolt_append _ _ (nolt_digits _ hdig) nolt_gt)]
                simp
            | none =>
                cases hspB : tagSplit ['/'] ('<' :: r) with
                | some x =>
                    -- a close tag `</ds>` at the head
                    obtain ⟨ds, r3⟩ := x
                    obtain ⟨hdec, hds, hdig⟩ := tagSplit_some_elim _ _ _ _ hspB
                    injection hdec with _ hr
                    have hlen3 : r3.length ≤ n := by
                      have h2 : r.length = 1 + ds.length + 1 + r3.length := by
                        rw [hr]
                        simp only [List.length_append, List.length_cons, List.length_nil]
                        omega
                      omega
                    have hno3 : hasTag tagChars r3 = false := by
                      have htail : hasTag tagChars r = false :=
                        (hasTag_cons_false tagChars '<' r hno).2
                      rw [hr] at htail
                      exact hasTag_append_false tagChars (['/'] ++ ds ++ ['>']) r3
                        (by rw [show (['/'] ++ ds ++ ['>']) ++ r3 = ['/'] ++ ds ++ '>' :: r3
                              by simp]
                            exact htail)
                    rw [subTag_cons, hspA]
                    show subTag tagChars []
                        (subTag ['/'] ('/' :: tagChars) ('<' :: subTag [] tagChars r)) = _
                    have hpassA : subTag [] tagChars r
                        = '/' :: ds ++ '>' :: subTag [] tagChars r3 := by
                      rw [hr]
                      rw [show ['/'] ++ ds ++ '>' :: r3 = (('/' :: ds) ++ ['>']) ++ r3 by simp]
                      rw [subTag_append_nolt _ _ _ _
                        (nolt_append _ _ (nolt_cons '/' (by decide) _
                          (nolt_digits _ hdig)) nolt_gt)]
                      simp
                    rw [hpassA]
                    have hspB1 : tagSplit ['/']
                        ('<' :: ('/' :: ds ++ '>' :: subTag [] tagChars r3))
                        = some (ds, subTag [] tagChars r3) := by
                      rw [show '<' :: ('/' :: ds ++ '>' :: subTag [] tagChars r3)
                          = '<' :: (['/'] ++ ds ++ '>' :: subTag [] tagChars r3) by simp]
                      exact tagSplit_some_intro ['/'] ds _ hds hdig
                    rw [subTag_cons, hspB1]
                    show subTag tagChars []
                        (('<' :: ('/' :: tagChars)) ++ ds
                          ++ ('>' :: subTag ['/'] ('/' :: tagChars) (subTag [] tagChars r3)))
                        = _
                    have hspU : tagSplit tagChars
                        ('<' :: (('/' :: tagChars) ++ ds
                          ++ ('>' :: subTag ['/'] ('/' :: tagChars) (subTag [] tagChars r3))))
                        = none := by
                      apply tagSplit_none_not_pre
                      rw [show ('/' :: tagChars) ++ ds
                          ++ ('>' :: subTag ['/'] ('/' :: tagChars) (subTag [] tagChars r3))
                          = '/' :: (tagChars ++ ds
                            ++ ('>' :: subTag ['/'] ('/' :: tagChars) (subTag [] tagChars r3)))
                        by simp]
                      exact tagChars_not_pre_slash _
                    rw [show ('<' :: ('/' :: tagChars)) ++ ds
                        ++ ('>' :: subTag ['/'] ('/' :: tagChars) (subTag [] tagChars r3))
                        = '<' :: (('/' :: tagChars) ++ ds
                          ++ ('>' :: subTag ['/'] ('/' :: tagChars) (subTag [] tagChars r3)))
                      by simp]
                    rw [subTag_cons, hspU]
                    show '<' :: subTag tagChars []
                        (('/' :: tagChars) ++ ds
                          ++ ('>' :: subTag ['/'] ('/' :: tagChars) (subTag [] tagChars r3)))
                        = _
                    rw [show ('/' :: tagChars) ++ ds
                        ++ ('>' :: subTag ['/'] ('/' :: tagChars) (subTag [] tagChars r3))
                        = (('/' :: tagChars) ++ ds ++ ['>'])
                          ++ subTag ['/'] ('/' :: tagChars) (subTag [] tagChars r3) by simp]
                    rw [subTag_append_nolt _ _ _ _
                      (nolt_append _ _ (nolt_append _ _ (nolt_cons '/' (by decide) _
                        tagChars_nolt) (nolt_digits _ hdig)) nolt_gt)]
                    rw [ih r3 hlen3 hno3]
                    rw [subTag_cons, hspB]
                    show _ = ('<' :: ('/' :: tagChars)) ++ ds
                        ++ ('>' :: subTag ['/'] ('/' :: tagChars) r3)
                    simp
                | none =>
                    -- no tag at this position
                    rw [subTag_cons, hspA]
                    show subTag tagChars []
                        (subTag ['/'] ('/' :: tagChars) ('<' :: subTag [] tagChars r)) = _
                    have hspB1 : tagSplit ['/'] ('<' :: subTag [] tagChars r) = none := by
                      have htrans := tagSplit_isSome_subTag ['/'] (by intro c hcm; simp at hcm; subst hcm; decide)
                        [] tagChars r
                      rw [hspB] at htrans
                      cases hx : tagSplit ['/'] ('<' :: subTag [] tagChars r) with
                      | none => rfl
                      | some y => rw [hx] at htrans; simp at htrans
                    rw [subTag_cons, hspB1]
                    show subTag tagChars []
                        ('<' :: subTag ['/'] ('/' :: tagChars) (subTag [] tagChars r)) = _
                    have hspU : tagSplit tagChars
                        ('<' :: subTag ['/'] ('/' :: tagChars) (subTag [] tagChars r))
                        = none := by
                      have htrans1 := tagSplit_isSome_subTag tagChars tagChars_nolt
                        ['/'] ('/' :: tagChars) (subTag [] tagChars r)
                      have htrans2 := tagSplit_isSome_subTag tagChars tagChars_nolt
                        [] tagChars r
                      have h0 : (tagSplit tagChars ('<' :: r)).isSome = false := by
                        rw [(hasTag_cons_false tagChars '<' r hno).1]
                        rfl
                      rw [htrans2, h0] at htrans1
                      cases hx : tagSplit tagChars
                          ('<' :: subTag ['/'] ('/' :: tagChars) (subTag [] tagChars r)) with
                      | none => rfl
                      | some y => rw [hx] at htrans1; simp at htrans1
                    rw [subTag_cons, hspU]
                    show '<' :: subTag tagChars []
                        (subTag ['/'] ('/' :: tagChars) (subTag [] tagChars r)) = _
                    rw [ih r hlr (hasTag_cons_false tagChars '<' r hno).2]
                    rw [subTag_cons, hspB]
          · rw [subTag_cons, tagSplit_none_of_ne [] c r hc]
            show subTag tagChars []
                (subTag ['/'] ('/' :: tagChars) (c :: subTag [] tagChars r)) = _
            rw [subTag_cons, tagSplit_none_of_ne ['/'] c _ hc]
            show subTag tagChars []
                (c :: subTag ['/'] ('/' :: tagChars) (subTag [] tagChars r)) = _
            rw [subTag_cons, tagSplit_none_of_ne tagChars c _ hc]
            show c :: subTag tagChars []
                (subTag ['/'] ('/' :: tagChars) (subTag [] tagChars r)) = _
            rw [ih r hlr (hasTag_cons_false tagChars c r hno).2]
            rw [subTag_cons, tagSplit_none_of_ne ['/'] c r hc]

/-! ## Claim theorems -/

/-- C1 (counterexample): drift detection misses a simultaneous change of value
and context whose concatenations coincide.  After successfully translating
value `"ab"` with context `"c"`, the entry changes to value `"a"` with context
`"bc"` — both fields differ from the last-translated ones, yet
`needs_translation` is false, because `main.py` line 178 fingerprints
`to_translate + (context or "")` and `"ab" + "c" = "a" + "bc"`.  The collision
happens before hashing, so it is independent of the fingerprint function. -/
theorem drift_concat_collision :
    needsTranslation idHash false
        (processEntry idHash oracleT false ⟨[], []⟩ ⟨"k", "ab", some "c"⟩).1
        ⟨"k", "a", some "bc"⟩ = false
      ∧ Entry.value ⟨"k", "a", some "bc"⟩ ≠ Entry.value (⟨"k", "ab", some "c"⟩ : Entry)
      ∧ Entry.context ⟨"k", "a", some "bc"⟩ ≠ Entry.context (⟨"k", "ab", some "c"⟩ : Entry) := by
  decide

/-- C1 (amended): with a collision-free fingerprint, after an entry is processed
with a successful translation, `needs_translation` on the next run is true
exactly when `value ++ (context or "")` differs from the last-translated
concatenation — any change to value or context is detected unless the two
concatenations coincide. -/
theorem drift_detection_concat (h : String → String) (hinj : Function.Injective h)
    (o1 o2 : String → Option String → Option String) (st : PassState) (e1 e2 : Entry)
    (hk : e2.key = e1.key) (t : String) (ht : o1 e1.value e1.context = some t)
    (htne : t ≠ "") :
    (processEntry h o2 false (processEntry h o1 false st e1).1 e2).2
      = decide (inputText e2 ≠ inputText e1) := by
  obtain ⟨u, hune, htr, hca⟩ : ∃ u, u ≠ ""
      ∧ (processEntry h o1 false st e1).1.translations = dictSet st.translations e1.key u
      ∧ (processEntry h o1 false st e1).1.cache
        = dictSet st.cache e1.key ⟨some (h (inputText e1)), some (h u)⟩ := by
    by_cases hn : needsTranslation h false st e1 = true
    · refine ⟨t, htne, ?_, ?_⟩
      · simp [processEntry, hn, ht, htne]
      · simp [processEntry, hn, ht, htne]
    · have hn' : needsTranslation h false st e1 = false := by simpa using hn
      obtain ⟨u, hcur, hu⟩ := needsTranslation_false_elim h false st e1 hn'
      simp only [Bool.false_eq_true, if_false] at hcur
      refine ⟨u, hu, ?_, ?_⟩
      · simp [processEntry, hn', hcur]
      · simp [processEntry, hn', hcur]
  show needsTranslation h false (processEntry h o1 false st e1).1 e2 = _
  rw [needsTranslation]
  simp only [htr, hca, hk, dictGet_dictSet_self, Bool.false_eq_true, if_false,
    Option.getD_some]
  rw [if_neg hune]
  simp only [Option.some.injEq, and_true, eq_self_iff_true]
  have hiff : (h (inputText e1) = h (inputText e2)) ↔ (inputText e2 = inputText e1) :=
    ⟨fun hh => (hinj hh).symm, fun hh => congrArg h hh.symm⟩
  rw [decide_not, decide_eq_decide.mpr hiff]

/-- C1 (witness for the amended theorem) at a concrete drifted entry. -/
theorem drift_detection_concat_witness :
    (processEntry idHash oracleFail false
        (processEntry idHash oracleT false ⟨[], []⟩ ⟨"k", "v1", none⟩).1
        ⟨"k", "v2", none⟩).2
      = decide (inputText ⟨"k", "v2", none⟩ ≠ inputText ⟨"k", "v1", none⟩) :=
  drift_detection_concat idHash (fun _ _ hh => hh) oracleT oracleFail ⟨[], []⟩
    ⟨"k", "v1", none⟩ ⟨"k", "v2", none⟩ rfl "T" rfl (by decide)

/-- C2: a locked record is pinned — `needs_translation` is forced false for it
regardless of drift, and a full reconciliation pass (including pruning) leaves
the record, in particular its `value`, unchanged.  Settled against the
spec-modelled reconciliation, since the `locked` flag exists in no file under
`src/`. -/
theorem locked_record_preserved (oracle : Entry → Option String) (p : Bool)
    (store : List (String × TranslationRecord)) (entries : List Entry) (k : String)
    (r : TranslationRecord) (hget : dictGet store k = some r) (hlock : r.locked = true)
    (hmem : k ∈ entries.map Entry.key) :
    dictGet (specReconcilePass oracle p store entries) k = some r
      ∧ ∀ e : Entry, specNeedsTranslation p (some r) e = false := by
  constructor
  · rw [specReconcilePass]
    rw [dictGet_filter _ _ k (fun v => by simp [hmem])]
    exact foldl_specReconcile_locked oracle p entries store k r hget hlock
  · intro e
    simp [specNeedsTranslation, hlock]

/-- C2 (witness): a locked record with drift in both value and context
survives a pass untouched. -/
theorem locked_record_preserved_witness :
    dictGet (specReconcilePass (fun _ => some "X") false
        [("k", ⟨"v", "orig", some "ctx", true⟩)] [⟨"k", "newvalue", none⟩]) "k"
      = some ⟨"v", "orig", some "ctx", true⟩
      ∧ ∀ e : Entry,
        specNeedsTranslation false (some ⟨"v", "orig", some "ctx", true⟩) e = false :=
  locked_record_preserved (fun _ => some "X") false
    [("k", ⟨"v", "orig", some "ctx", true⟩)] [⟨"k", "newvalue", none⟩] "k"
    ⟨"v", "orig", some "ctx", true⟩ (by decide) (by decide) (by decide)

/-- C3 (counterexample): no pruning happens.  A record whose key `"old"` is not
among the current entries is still present in the store after the pass. -/
theorem stale_record_not_pruned :
    dictGet (processPass idHash oracleT false ⟨[("old", "w")], []⟩
        [⟨"k", "x", none⟩]).1.translations "old" = some "w"
      ∧ "old" ∉ ([⟨"k", "x", none⟩] : List Entry).map Entry.key := by
  decide

/-- C3 (amended): after a pass the key set of the store is the union of the
prior store's keys and the current entry keys — every current entry has a
record, but records for removed keys are retained, not deleted. -/
theorem store_keys_after_pass (h : String → String)
    (o : String → Option String → Option String) (p : Bool) (st : PassState)
    (entries : List Entry) (k : String) :
    (dictGet (processPass h o p st entries).1.translations k).isSome
      = ((dictGet st.translations k).isSome || decide (k ∈ entries.map Entry.key)) :=
  processPass_translations_isSome h o p st entries k

/-- C4 (counterexample): running the engine twice over unchanged entries still
invokes the translation capability in the second run, because the hash cache is
keyed by entry key only and two namespaces share the key `"k"` with different
values (`main.py` line 177). -/
theorem second_run_calls_capability :
    (runNamespaces idHash oracleT false
        (runNamespaces idHash oracleT false ⟨[], []⟩
          [("a", [⟨"k", "x", none⟩]), ("b", [⟨"k", "y", none⟩])]).1
        [("a", [⟨"k", "x", none⟩]), ("b", [⟨"k", "y", none⟩])]).2 ≠ 0 := by
  decide

/-- C4 (amended): when no two namespaces share an entry key, entry keys are
unique within each namespace, and every source value is non-empty, a second run
over unchanged entries makes zero translation-capability calls and returns the
stores and cache unchanged (same records in the same order, hence byte-identical
serialization, since `json.dump` over an unchanged insertion-ordered dict is
deterministic). -/
theorem second_run_idempotent (h : String → String)
    (o1 o2 : String → Option String → Option String) (p : Bool) (st : RunState)
    (nss : List (String × List Entry))
    (hnd : (nss.map Prod.fst).Nodup)
    (hknd : ∀ x ∈ nss, (x.2.map Entry.key).Nodup)
    (hdisj : List.Pairwise (fun a b => ∀ k ∈ a.2.map Entry.key, k ∉ b.2.map Entry.key) nss)
    (hval : ∀ x ∈ nss, ∀ e ∈ x.2, e.value ≠ "") :
    runNamespaces h o2 p (runNamespaces h o1 p st nss).1 nss
      = ((runNamespaces h o1 p st nss).1, 0) := by
  obtain ⟨hsome, hs⟩ := settled_after_run h o1 p st nss hnd hknd hdisj hval
  exact runNamespaces_of_settled h o2 p _ nss hsome hs

/-- C4 (witness for the amended theorem): two namespaces with distinct keys. -/
theorem second_run_idempotent_witness :
    runNamespaces idHash oracleFail false
        (runNamespaces idHash oracleT false ⟨[], []⟩
          [("a", [⟨"k1", "x", none⟩]), ("b", [⟨"k2", "y", none⟩])]).1
        [("a", [⟨"k1", "x", none⟩]), ("b", [⟨"k2", "y", none⟩])]
      = ((runNamespaces idHash oracleT false ⟨[], []⟩
          [("a", [⟨"k1", "x", none⟩]), ("b", [⟨"k2", "y", none⟩])]).1, 0) :=
  second_run_idempotent idHash oracleT oracleFail false ⟨[], []⟩
    [("a", [⟨"k1", "x", none⟩]), ("b", [⟨"k2", "y", none⟩])]
    (by decide) (by decide) (by decide) (by decide)

/-- C5 (code bug): for the primary language and an entry with empty source
value, `needs_translation` is true (the truthiness check on line 195 fires
before the primary-language setup of lines 186-191 can take effect, contrary to
the comment there), the capability is invoked, and its answer `"x"` is stored,
so the persisted value differs from the entry value — primary-language identity
is violated. -/
theorem primary_empty_value_translated :
    needsTranslation idHash true ⟨[], []⟩ ⟨"k", "", none⟩ = true
      ∧ dictGet (processEntry idHash (fun _ _ => some "x") true ⟨[], []⟩
          ⟨"k", "", none⟩).1.translations "k" = some "x"
      ∧ Entry.value (⟨"k", "", none⟩ : Entry) = ""
      ∧ ("x" : String) ≠ "" := by
  decide

/-- C6 (counterexample): the drift metadata is rewritten even when translation
fails.  A successful translation of `"v1"` stores input fingerprint `"v1"`;
after a failed re-translation of the drifted value `"v2"`, the cache holds the
fingerprints of the *current* input `"v2"` and of the fallback text, not of the
last successfully translated state. -/
theorem metadata_updated_on_failure :
    dictGet (processEntry idHash oracleFail false
        (processEntry idHash oracleT false ⟨[], []⟩ ⟨"k", "v1", none⟩).1
        ⟨"k", "v2", none⟩).1.cache "k"
      = some ⟨some "v2", some "v2"⟩
    ∧ (some "v2" : Option String) ≠ some "v1" := by
  decide

/-- C6 (amended): the `input` and `output` fingerprints are written together
after every processed entry, on failure as well as on success (`main.py` lines
232-233); after a failed attempt they reflect the current source state and the
fallback value, so the entry is not retried on later runs. -/
theorem metadata_after_failure (h : String → String)
    (o : String → Option String → Option String) (p : Bool) (st : PassState)
    (e : Entry) (hneeds : needsTranslation h p st e = true)
    (hfail : o e.value e.context = none) :
    dictGet (processEntry h o p st e).1.cache e.key
      = some ⟨some (h (inputText e)), some (h e.value)⟩ := by
  simp [processEntry, hneeds, hfail, dictGet_dictSet_self]

/-- C6 (witness for the amended theorem). -/
theorem metadata_after_failure_witness :
    dictGet (processEntry idHash oracleFail false ⟨[], []⟩
        ⟨"k", "v", none⟩).1.cache "k"
      = some ⟨some (idHash (inputText ⟨"k", "v", none⟩)), some (idHash "v")⟩ :=
  metadata_after_failure idHash oracleFail false ⟨[], []⟩ ⟨"k", "v", none⟩
    (by decide) (by decide)

/-- C7 (counterexample): records are serialized in insertion order, not in
lexicographic key order — entries processed in the order `b`, `a` produce the
store key order `["b", "a"]`. -/
theorem serialization_not_lexicographic :
    ((processPass idHash oracleT false ⟨[], []⟩
        [⟨"b", "x", none⟩, ⟨"a", "y", none⟩]).1.translations.map Prod.fst = ["b", "a"])
    ∧ ¬ List.Pairwise (fun x y => List.Lex (fun a b => a < b) x.data y.data)
        ((processPass idHash oracleT false ⟨[], []⟩
          [⟨"b", "x", none⟩, ⟨"a", "y", none⟩]).1.translations.map Prod.fst) := by
  decide

/-- C7 (amended): the serialized key order is deterministic insertion order —
the keys of the previously loaded store in their stored order, followed by the
new entry keys in processing order (`json.dump` writes the dict in exactly this
order). -/
theorem serialization_insertion_order (h : String → String)
    (o : String → Option String → Option String) (p : Bool) (st : PassState)
    (entries : List Entry) (hnd : (entries.map Entry.key).Nodup) :
    (processPass h o p st entries).1.translations.map Prod.fst
      = st.translations.map Prod.fst
        ++ (entries.map Entry.key).filter
            (fun k => !decide (k ∈ st.translations.map Prod.fst)) :=
  processPass_keys h o p st entries hnd

/-- C7 (witness for the amended theorem). -/
theorem serialization_insertion_order_witness :
    (processPass idHash oracleT false ⟨[("z", "w")], []⟩
        [⟨"b", "x", none⟩, ⟨"a", "y", none⟩, ⟨"z", "v", none⟩]).1.translations.map Prod.fst
      = (([("z", "w")] : List (String × String)).map Prod.fst
        ++ (([⟨"b", "x", none⟩, ⟨"a", "y", none⟩, ⟨"z", "v", none⟩] : List Entry).map
            Entry.key).filter
            (fun k => !decide (k ∈ ([("z", "w")] : List (String × String)).map Prod.fst))) :=
  serialization_insertion_order idHash oracleT false ⟨[("z", "w")], []⟩
    [⟨"b", "x", none⟩, ⟨"a", "y", none⟩, ⟨"z", "v", none⟩] (by decide)

/-- C8: when the capability fails on an entry (invocation error `none`, or a
falsy result rejected by the `assert`), the source text is stored as that
entry's translation and the pass continues with the remaining entries (the loop
body ends normally and processing recurses on the rest). -/
theorem failure_fallback_continues (h : String → String)
    (o : String → Option String → Option String) (p : Bool) (st : PassState)
    (e : Entry) (rest : List Entry)
    (hneeds : needsTranslation h p st e = true)
    (hfail : o e.value e.context = none ∨ o e.value e.context = some "") :
    dictGet (processEntry h o p st e).1.translations e.key = some e.value
      ∧ processPass h o p st (e :: rest)
        = ((processPass h o p (processEntry h o p st e).1 rest).1,
            1 + (processPass h o p (processEntry h o p st e).1 rest).2) := by
  constructor
  · rcases hfail with hf | hf
    · simp [processEntry, hneeds, hf, dictGet_dictSet_self]
    · simp [processEntry, hneeds, hf, dictGet_dictSet_self]
  · show ((processPass h o p (processEntry h o p st e).1 rest).1,
        (if (processEntry h o p st e).2 then 1 else 0)
          + (processPass h o p (processEntry h o p st e).1 rest).2) = _
    rw [show (processEntry h o p st e).2 = needsTranslation h p st e from rfl, hneeds]
    rfl

/-- C8 (witness): a failing oracle on a fresh entry stores the source text and
the pass continues over the remaining entry. -/
theorem failure_fallback_continues_witness :
    dictGet (processEntry idHash oracleFail false ⟨[], []⟩
        ⟨"k", "v", none⟩).1.translations "k" = some "v"
      ∧ processPass idHash oracleFail false ⟨[], []⟩
          [⟨"k", "v", none⟩, ⟨"k2", "w", none⟩]
        = ((processPass idHash oracleFail false
            (processEntry idHash oracleFail false ⟨[], []⟩ ⟨"k", "v", none⟩).1
            [⟨"k2", "w", none⟩]).1,
          1 + (processPass idHash oracleFail false
            (processEntry idHash oracleFail false ⟨[], []⟩ ⟨"k", "v", none⟩).1
            [⟨"k2", "w", none⟩]).2) :=
  failure_fallback_continues idHash oracleFail false ⟨[], []⟩ ⟨"k", "v", none⟩
    [⟨"k2", "w", none⟩] (by decide) (Or.inl (by decide))

/-- C9 (counterexample): the escape/unescape pair is not a round trip on every
string — on `"<tag_1>"` escaping is the identity but unescaping rewrites it to
`"<1>"`. -/
theorem placeholder_roundtrip_counterexample :
    unescape_placeholder_tags (escape_placeholder_tags ['<', 't', 'a', 'g', '_', '1', '>'])
      = ['<', '1', '>']
    ∧ (['<', '1', '>'] : List Char) ≠ ['<', 't', 'a', 'g', '_', '1', '>'] := by
  decide

/-- C9 (amended): for every string containing no occurrence of `<tag_N>` and no
occurrence of `</tag_N>` (N a non-empty digit run) — in particular every string
whose only markers are ordinal tags `<N>...</N>` —
`unescape_placeholder_tags (escape_placeholder_tags s) = s`, so ordinal tags
survive the escape/extract/unescape pipeline verbatim. -/
theorem placeholder_roundtrip (s : List Char)
    (h1 : hasTag tagChars s = false) (h2 : hasTag ('/' :: tagChars) s = false) :
    unescape_placeholder_tags (escape_placeholder_tags s) = s := by
  rw [escape_placeholder_tags, unescape_placeholder_tags]
  rw [unesc_open_comm_fuel s.length s le_rfl h1]
  exact subTag_left_inverse ['/'] ('/' :: tagChars)
    (nolt_cons '/' (by decide) _ tagChars_nolt) s h2

/-- C9 (witness for the amended theorem) on a string with ordinal tags and a
template span. -/
theorem placeholder_roundtrip_witness :
    unescape_placeholder_tags (escape_placeholder_tags
        ['<', '1', '>', 'h', 'i', '<', '/', '1', '>', ' ', '<', '2', '3', '>'])
      = ['<', '1', '>', 'h', 'i', '<', '/', '1', '>', ' ', '<', '2', '3', '>'] :=
  placeholder_roundtrip
    ['<', '1', '>', 'h', 'i', '<', '/', '1', '>', ' ', '<', '2', '3', '>']
    (by decide) (by decide)

/-- C10: a stored translation that is present but empty is falsy in the check
`if not cur_translation` (`main.py` line 195), so `needs_translation` is true
for any cache state — in particular even when the fingerprints match the
current source value and context exactly. -/
theorem empty_stored_needs_translation (h : String → String) (st : PassState)
    (e : Entry) (hstored : dictGet st.translations e.key = some "") :
    needsTranslation h false st e = true := by
  rw [needsTranslation]
  simp [hstored]

/-- C10 (witness): the stored translation is `""` while the cache fingerprints
match the current input and stored output exactly; `needs_translation` is still
true. -/
theorem empty_stored_needs_translation_witness :
    needsTranslation idHash false
        ⟨[("k", "")], [("k", ⟨some (idHash (inputText ⟨"k", "v", none⟩)),
          some (idHash "")⟩)]⟩ ⟨"k", "v", none⟩ = true :=
  empty_stored_needs_translation idHash
    ⟨[("k", "")], [("k", ⟨some (idHash (inputText ⟨"k", "v", none⟩)),
      some (idHash "")⟩)]⟩ ⟨"k", "v", none⟩ (by decide)

end Translator
